import Mathlib

set_option linter.unusedSectionVars false

/-!
# Verification of the polynomial-opening aggregation core

This development embeds, in Lean 4, the components of the tachyon
polynomial-opening aggregation core:

* `Grouper` — the claim grouper of
  `tachyon/crypto/commitments/polynomial_openings.h`
  (`PolynomialOpeningGrouper`): an executable shallow embedding where the
  `absl::btree_set` of point deep-refs is modelled as a sorted,
  duplicate-free list and `base::DeepRef` equality is value equality of
  the referent.
* `QB` — the quotient builder of the same header
  (`GroupedPolynomialOpenings`): polynomials are Mathlib `Polynomial F`;
  the external primitives (`math::LagrangeInterpolate`, `Poly::FromRoots`,
  `Poly::LinearizeInPlace`, polynomial division) are modelled from the
  spec, as marked on each definition.
* `Lookup` — the halo2 lookup prover's `Evaluate`/`Open` step of
  `tachyon/zk/lookup/halo2/prover_impl.h`.
* `R1CS` — the circom R1CS binary reader of
  `vendors/circom/circomlib/r1cs/r1cs.h`, with the byte buffer modelled
  as a list of bytes plus an explicit cursor.

Theorems about each claim of the specification follow the definitions.
-/

namespace Grouper

variable {O Pt V : Type} [DecidableEq O] [LinearOrder Pt] [DecidableEq V]

/-- `crypto::PolynomialOpening`: a single oracle with a single opening.
`poly_oracle` and `point` are `base::DeepRef`s, which compare by the value
of their referent, so they are modelled by plain values. -/
structure PolynomialOpening (O Pt V : Type) where
  poly_oracle : O
  point : Pt
  opening : V
  deriving DecidableEq, Repr

/-- `absl::btree_set<PointDeepRef>::insert`: ordered insertion into a
sorted duplicate-free list, keyed by the point value. -/
def btreeInsert (x : Pt) : List Pt → List Pt
  | [] => [x]
  | y :: ys =>
    if x < y then x :: y :: ys
    else if x = y then y :: ys
    else y :: btreeInsert x ys

/-- Inserting every element of `xs` into the set `s`, in order. -/
def insertAll (s : List Pt) (xs : List Pt) : List Pt :=
  xs.foldl (fun s x => btreeInsert x s) s

/-- `PolynomialOpeningGrouper::PolyOracleGroupedPair`: one oracle together
with the btree-set of its points. -/
structure PolyOracleGroupedPair (O Pt : Type) where
  poly_oracle : O
  points : List Pt
  deriving DecidableEq, Repr

/-- The body of the `GroupByPoly` loop: find the first entry whose oracle
equals `o` and insert `x` into its point set; otherwise append a fresh
entry `{o, {x}}` at the end (`ret.push_back(new_pair)`). -/
def addPointToPoly (o : O) (x : Pt) :
    List (PolyOracleGroupedPair O Pt) → List (PolyOracleGroupedPair O Pt)
  | [] => [⟨o, [x]⟩]
  | p :: ps =>
    if p.poly_oracle = o then ⟨p.poly_oracle, btreeInsert x p.points⟩ :: ps
    else p :: addPointToPoly o x ps

/-- `PolynomialOpeningGrouper::GroupByPoly`: one pass over the claims,
accumulating `(oracle, point-set)` pairs in first-appearance order. -/
def groupByPoly (claims : List (PolynomialOpening O Pt V)) :
    List (PolyOracleGroupedPair O Pt) :=
  claims.foldl (fun ret c => addPointToPoly c.poly_oracle c.point ret) []

/-- `super_point_set_`: during `GroupByPoly` every claim's point is also
inserted into the btree-set of all points. -/
def superPointSet (claims : List (PolynomialOpening O Pt V)) : List Pt :=
  claims.foldl (fun s c => btreeInsert c.point s) []

/-- `PolynomialOpeningGrouper::PointGroupedPair`: a point set together with
the oracles opened exactly at that point set. -/
structure PointGroupedPair (O Pt : Type) where
  points : List Pt
  polys : List O
  deriving DecidableEq, Repr

/-- The body of the `GroupByPoints` loop: find the first output entry whose
point set equals `pts` (btree-set `==`, i.e. equality of the canonical
sorted sequences) and push the oracle; otherwise append a fresh entry. -/
def addPolyToPoints (pts : List Pt) (o : O) :
    List (PointGroupedPair O Pt) → List (PointGroupedPair O Pt)
  | [] => [⟨pts, [o]⟩]
  | g :: gs =>
    if g.points = pts then ⟨g.points, g.polys ++ [o]⟩ :: gs
    else g :: addPolyToPoints pts o gs

/-- `PolynomialOpeningGrouper::GroupByPoints`: second pass, grouping the
pass-one pairs by point-set equality. -/
def groupByPoints (pairs : List (PolyOracleGroupedPair O Pt)) :
    List (PointGroupedPair O Pt) :=
  pairs.foldl (fun ret p => addPolyToPoints p.points p.poly_oracle ret) []

/-- `PolynomialOpeningGrouper::GetOpeningFromPolyOpenings`: linear scan for
the first claim on `(poly_oracle, point)`; the C++ `CHECK`s that a match
exists, modelled by `Option`. -/
def getOpeningFromPolyOpenings (claims : List (PolynomialOpening O Pt V))
    (o : O) (x : Pt) : Option V :=
  (claims.find? fun c => c.poly_oracle = o ∧ c.point = x).map (·.opening)

/-- `crypto::PolynomialOpenings`: one oracle with its value row. -/
structure PolynomialOpenings (O V : Type) where
  poly_oracle : O
  openings : List (Option V)
  deriving DecidableEq, Repr

/-- `crypto::GroupedPolynomialOpenings` (grouper output shape). -/
structure GroupedPolynomialOpenings (O Pt V : Type) where
  poly_openings_vec : List (PolynomialOpenings O V)
  point_refs : List Pt
  deriving DecidableEq, Repr

/-- `PolynomialOpeningGrouper::CreateMultiPolynomialOpenings`: materialize
each `(points, polys)` pair, looking the value of every oracle up at every
point of the group, in the btree-set's canonical (sorted) order. -/
def createMultiPolynomialOpenings (claims : List (PolynomialOpening O Pt V))
    (groups : List (PointGroupedPair O Pt)) :
    List (GroupedPolynomialOpenings O Pt V) :=
  groups.map fun g =>
    ⟨g.polys.map fun o =>
      ⟨o, g.points.map fun x => getOpeningFromPolyOpenings claims o x⟩,
     g.points⟩

/-- `PolynomialOpeningGrouper::GroupByPolyAndPoints`: the full pipeline. -/
def groupByPolyAndPoints (claims : List (PolynomialOpening O Pt V)) :
    List (GroupedPolynomialOpenings O Pt V) :=
  createMultiPolynomialOpenings claims (groupByPoints (groupByPoly claims))

end Grouper

section GrouperLemmas

namespace Grouper

variable {O Pt V : Type} [DecidableEq O] [LinearOrder Pt] [DecidableEq V]

theorem mem_btreeInsert {x y : Pt} : ∀ {l : List Pt},
    y ∈ btreeInsert x l ↔ y = x ∨ y ∈ l := by
  intro l
  induction l with
  | nil => simp [btreeInsert]
  | cons a l ih =>
    by_cases h1 : x < a
    · simp [btreeInsert, h1]
    · by_cases h2 : x = a
      · rw [btreeInsert, if_neg h1, if_pos h2]
        subst h2
        simp only [List.mem_cons]
        tauto
      · simp only [btreeInsert, if_neg h1, if_neg h2, List.mem_cons, ih]
        tauto

theorem sorted_btreeInsert {x : Pt} : ∀ {l : List Pt},
    l.Sorted (· < ·) → (btreeInsert x l).Sorted (· < ·) := by
  intro l
  induction l with
  | nil => simp [btreeInsert]
  | cons a l ih =>
    intro hs
    rw [List.sorted_cons] at hs
    by_cases h1 : x < a
    · rw [btreeInsert, if_pos h1, List.sorted_cons]
      constructor
      · intro b hb
        rcases List.mem_cons.mp hb with rfl | hb
        · exact h1
        · exact h1.trans (hs.1 b hb)
      · rw [List.sorted_cons]; exact hs
    · by_cases h2 : x = a
      · rw [btreeInsert, if_neg h1, if_pos h2, List.sorted_cons]
        exact hs
      · rw [btreeInsert, if_neg h1, if_neg h2, List.sorted_cons]
        refine ⟨?_, ih hs.2⟩
        intro b hb
        rcases mem_btreeInsert.mp hb with rfl | hb
        · exact lt_of_le_of_ne (not_lt.mp h1) (Ne.symm h2)
        · exact hs.1 b hb

theorem mem_insertAll {y : Pt} : ∀ {xs s : List Pt},
    y ∈ insertAll s xs ↔ y ∈ s ∨ y ∈ xs := by
  intro xs
  induction xs with
  | nil => simp [insertAll]
  | cons x xs ih =>
    intro s
    show y ∈ insertAll (btreeInsert x s) xs ↔ _
    rw [ih, mem_btreeInsert]
    simp only [List.mem_cons]
    tauto

theorem sorted_insertAll : ∀ {xs s : List Pt},
    s.Sorted (· < ·) → (insertAll s xs).Sorted (· < ·) := by
  intro xs
  induction xs with
  | nil => intro s hs; exact hs
  | cons x xs ih =>
    intro s hs
    exact ih (sorted_btreeInsert hs)

theorem insertAll_append {s : List Pt} {xs ys : List Pt} :
    insertAll s (xs ++ ys) = insertAll (insertAll s xs) ys := by
  simp [insertAll, List.foldl_append]

end Grouper

end GrouperLemmas

namespace Grouper

/-- First-appearance key sequence: the distinct keys `k a` of the elements
of a list, in order of first appearance, excluding keys already `seen`.
This is the order in which both grouping passes emit fresh entries. -/
def newKeys {α κ : Type} [DecidableEq κ] (k : α → κ) : List κ → List α → List κ
  | _, [] => []
  | seen, a :: l =>
    if k a ∈ seen then newKeys k seen l
    else k a :: newKeys k (seen ++ [k a]) l

theorem mem_newKeys {α κ : Type} [DecidableEq κ] {k : α → κ} {x : κ} :
    ∀ {l : List α} {seen : List κ},
      x ∈ newKeys k seen l ↔ x ∉ seen ∧ x ∈ l.map k := by
  intro l
  induction l with
  | nil => simp [newKeys]
  | cons a l ih =>
    intro seen
    by_cases h : k a ∈ seen
    · rw [newKeys, if_pos h, ih]
      simp only [List.map_cons, List.mem_cons]
      constructor
      · rintro ⟨h1, h2⟩; exact ⟨h1, Or.inr h2⟩
      · rintro ⟨h1, h2 | h2⟩
        · exact absurd (h2 ▸ h) h1
        · exact ⟨h1, h2⟩
    · rw [newKeys, if_neg h]
      simp only [List.mem_cons, ih, List.mem_append, List.map_cons,
        List.mem_singleton]
      constructor
      · rintro (rfl | ⟨h1, h2⟩)
        · exact ⟨h, Or.inl rfl⟩
        · exact ⟨fun hx => h1 (Or.inl hx), Or.inr h2⟩
      · rintro ⟨h1, rfl | h2⟩
        · exact Or.inl rfl
        · by_cases hxa : x = k a
          · exact Or.inl hxa
          · refine Or.inr ⟨fun hx => ?_, h2⟩
            rcases hx with hx | hx | hx
            · exact h1 hx
            · exact hxa hx
            · exact absurd hx (List.not_mem_nil x)

theorem nodup_newKeys {α κ : Type} [DecidableEq κ] {k : α → κ} :
    ∀ {l : List α} {seen : List κ}, (newKeys k seen l).Nodup := by
  intro l
  induction l with
  | nil => simp [newKeys]
  | cons a l ih =>
    intro seen
    by_cases h : k a ∈ seen
    · rw [newKeys, if_pos h]; exact ih
    · rw [newKeys, if_neg h, List.nodup_cons]
      refine ⟨fun hmem => ?_, ih⟩
      exact (mem_newKeys.mp hmem).1 (by simp)

theorem newKeys_map {α β κ : Type} [DecidableEq κ] {g : β → κ} {f : α → β} :
    ∀ {l : List α} {seen : List κ},
      newKeys g seen (l.map f) = newKeys (fun a => g (f a)) seen l := by
  intro l
  induction l with
  | nil => simp [newKeys]
  | cons a l ih =>
    intro seen
    by_cases h : g (f a) ∈ seen
    · rw [List.map_cons, newKeys, if_pos h, newKeys, if_pos h, ih]
    · rw [List.map_cons, newKeys, if_neg h, newKeys, if_neg h, ih]

theorem newKeys_newKeys {α κ₁ κ₂ : Type} [DecidableEq κ₁] [DecidableEq κ₂]
    {f : α → κ₁} {g : κ₁ → κ₂} :
    ∀ {l : List α} {seen₁ : List κ₁} {seen₂ : List κ₂},
      (∀ k1 ∈ seen₁, g k1 ∈ seen₂) →
      newKeys g seen₂ (newKeys f seen₁ l) = newKeys (fun a => g (f a)) seen₂ l := by
  intro l
  induction l with
  | nil => simp [newKeys]
  | cons a l ih =>
    intro seen₁ seen₂ hsub
    by_cases h1 : f a ∈ seen₁
    · rw [newKeys, if_pos h1, newKeys, if_pos (hsub _ h1), ih hsub]
    · by_cases h2 : g (f a) ∈ seen₂
      · rw [newKeys, if_neg h1, newKeys, if_pos h2, newKeys, if_pos h2]
        refine ih fun k1 hk1 => ?_
        rcases List.mem_append.mp hk1 with hk1 | hk1
        · exact hsub _ hk1
        · rw [List.mem_singleton.mp hk1]; exact h2
      · rw [newKeys, if_neg h1, newKeys, if_neg h2, newKeys, if_neg h2]
        congr 1
        refine ih fun k1 hk1 => ?_
        rcases List.mem_append.mp hk1 with hk1 | hk1
        · exact List.mem_append.mpr (Or.inl (hsub _ hk1))
        · rw [List.mem_singleton.mp hk1]; simp

end Grouper

namespace Grouper

variable {O Pt V : Type} [DecidableEq O] [LinearOrder Pt] [DecidableEq V]

/-- The points of all claims on oracle `o`, in input order. -/
def ptsOf (o : O) (cs : List (PolynomialOpening O Pt V)) : List Pt :=
  (cs.filter fun c => c.poly_oracle = o).map (·.point)

/-- The btree-set of points accumulated for oracle `o` by `GroupByPoly`:
its claims' points, sorted and duplicate-free. -/
def oraclePointSet (claims : List (PolynomialOpening O Pt V)) (o : O) :
    List Pt :=
  insertAll [] (ptsOf o claims)

theorem ptsOf_cons_self {o : O} {c : PolynomialOpening O Pt V}
    {cs : List (PolynomialOpening O Pt V)} (h : c.poly_oracle = o) :
    ptsOf o (c :: cs) = c.point :: ptsOf o cs := by
  simp [ptsOf, List.filter_cons, h]

theorem ptsOf_cons_ne {o : O} {c : PolynomialOpening O Pt V}
    {cs : List (PolynomialOpening O Pt V)} (h : ¬c.poly_oracle = o) :
    ptsOf o (c :: cs) = ptsOf o cs := by
  simp [ptsOf, List.filter_cons, h]

theorem mem_ptsOf {o : O} {x : Pt} {cs : List (PolynomialOpening O Pt V)} :
    x ∈ ptsOf o cs ↔ ∃ c ∈ cs, c.poly_oracle = o ∧ c.point = x := by
  simp only [ptsOf, List.mem_map, List.mem_filter, decide_eq_true_eq]
  constructor
  · rintro ⟨c, ⟨hc, ho⟩, hx⟩; exact ⟨c, hc, ho, hx⟩
  · rintro ⟨c, hc, ho, hx⟩; exact ⟨c, ⟨hc, ho⟩, hx⟩

theorem mem_oraclePointSet {o : O} {x : Pt}
    {claims : List (PolynomialOpening O Pt V)} :
    x ∈ oraclePointSet claims o ↔
      ∃ c ∈ claims, c.poly_oracle = o ∧ c.point = x := by
  rw [oraclePointSet, mem_insertAll, mem_ptsOf]
  simp

theorem sorted_oraclePointSet {o : O}
    {claims : List (PolynomialOpening O Pt V)} :
    (oraclePointSet claims o).Sorted (· < ·) :=
  sorted_insertAll (List.sorted_nil)

theorem addPointToPoly_of_not_mem {o : O} {x : Pt} :
    ∀ {ret : List (PolyOracleGroupedPair O Pt)},
      o ∉ ret.map (·.poly_oracle) →
      addPointToPoly o x ret = ret ++ [⟨o, [x]⟩] := by
  intro ret
  induction ret with
  | nil => intro _; rfl
  | cons p ps ih =>
    intro h
    simp only [List.map_cons, List.mem_cons] at h
    push_neg at h
    rw [addPointToPoly, if_neg (fun hp => h.1 hp.symm), ih h.2,
      List.cons_append]

theorem addPointToPoly_of_mem {o : O} {x : Pt} :
    ∀ {ret : List (PolyOracleGroupedPair O Pt)},
      (ret.map (·.poly_oracle)).Nodup →
      o ∈ ret.map (·.poly_oracle) →
      addPointToPoly o x ret =
        ret.map fun p =>
          if p.poly_oracle = o then ⟨o, btreeInsert x p.points⟩ else p := by
  intro ret
  induction ret with
  | nil => intro _ h; simp at h
  | cons p ps ih =>
    intro hn h
    simp only [List.map_cons, List.nodup_cons] at hn
    by_cases hp : p.poly_oracle = o
    · rw [addPointToPoly, if_pos hp, List.map_cons, if_pos hp]
      congr 1
      · rw [hp]
      · have hps : ∀ q ∈ ps, ¬q.poly_oracle = o := by
          intro q hq hqo
          exact hn.1 (hp ▸ hqo ▸ List.mem_map_of_mem (·.poly_oracle) hq)
        have hmap : List.map
            (fun p => if p.poly_oracle = o
              then (⟨o, btreeInsert x p.points⟩ : PolyOracleGroupedPair O Pt)
              else p) ps = List.map id ps := by
          refine List.map_congr_left fun q hq => ?_
          rw [if_neg (hps q hq)]
          rfl
        rw [hmap, List.map_id]
    · rcases List.mem_cons.mp h with h | h
      · exact absurd h.symm hp
      · rw [addPointToPoly, if_neg hp, List.map_cons, if_neg hp,
          ih hn.2 h]

theorem map_poly_oracle_addPointToPoly {o : O} {x : Pt} :
    ∀ {ret : List (PolyOracleGroupedPair O Pt)},
      (addPointToPoly o x ret).map (·.poly_oracle) =
        if o ∈ ret.map (·.poly_oracle) then ret.map (·.poly_oracle)
        else ret.map (·.poly_oracle) ++ [o] := by
  intro ret
  induction ret with
  | nil => simp [addPointToPoly]
  | cons p ps ih =>
    by_cases hp : p.poly_oracle = o
    · rw [addPointToPoly, if_pos hp, List.map_cons, List.map_cons,
        if_pos (by rw [hp]; exact List.mem_cons_self _ _)]
    · rw [addPointToPoly, if_neg hp, List.map_cons, ih, List.map_cons]
      by_cases h : o ∈ ps.map (·.poly_oracle)
      · rw [if_pos h, if_pos (List.mem_cons_of_mem _ h)]
      · rw [if_neg h, if_neg (fun hc => ?_), List.cons_append]
        rcases List.mem_cons.mp hc with hc | hc
        · exact hp hc.symm
        · exact h hc

end Grouper

namespace Grouper

variable {O Pt V : Type} [DecidableEq O] [LinearOrder Pt] [DecidableEq V]

/-- Explicit form of the `GroupByPoly` loop: starting from an accumulator
whose oracles are distinct, the loop inserts every remaining point of each
existing oracle into its entry and appends one fresh entry per new oracle,
in first-appearance order. -/
theorem foldl_addPointToPoly :
    ∀ (cs : List (PolynomialOpening O Pt V))
      (ret : List (PolyOracleGroupedPair O Pt)),
      (ret.map (·.poly_oracle)).Nodup →
      cs.foldl (fun ret c => addPointToPoly c.poly_oracle c.point ret) ret =
        ret.map (fun p =>
            ⟨p.poly_oracle, insertAll p.points (ptsOf p.poly_oracle cs)⟩)
          ++ (newKeys (·.poly_oracle) (ret.map (·.poly_oracle)) cs).map
              (fun o => ⟨o, insertAll [] (ptsOf o cs)⟩) := by
  intro cs
  induction cs with
  | nil =>
    intro ret hn
    have hid : (fun (p : PolyOracleGroupedPair O Pt) =>
        (⟨p.poly_oracle, insertAll p.points
          (ptsOf p.poly_oracle ([] : List (PolynomialOpening O Pt V)))⟩ :
          PolyOracleGroupedPair O Pt)) = id := by
      funext p; cases p; rfl
    simp only [List.foldl_nil, newKeys, List.map_nil, List.append_nil, hid,
      List.map_id]
  | cons c cs ih =>
    intro ret hn
    rw [List.foldl_cons]
    by_cases hmem : c.poly_oracle ∈ ret.map (·.poly_oracle)
    · have hmap : ((ret.map (fun p => if p.poly_oracle = c.poly_oracle
          then (⟨c.poly_oracle, btreeInsert c.point p.points⟩ :
            PolyOracleGroupedPair O Pt)
          else p)).map (·.poly_oracle)) = ret.map (·.poly_oracle) := by
        rw [List.map_map]
        refine List.map_congr_left fun p _ => ?_
        by_cases hp : p.poly_oracle = c.poly_oracle
        · simp only [Function.comp_apply, if_pos hp]; exact hp.symm
        · simp only [Function.comp_apply, if_neg hp]
      rw [addPointToPoly_of_mem hn hmem, ih _ (by rw [hmap]; exact hn), hmap,
        List.map_map]
      simp only [newKeys, if_pos hmem]
      congr 1
      · refine List.map_congr_left fun p _ => ?_
        by_cases hpo : p.poly_oracle = c.poly_oracle
        · simp only [Function.comp_apply, if_pos hpo]
          rw [hpo, ptsOf_cons_self rfl]
          rfl
        · simp only [Function.comp_apply, if_neg hpo]
          rw [ptsOf_cons_ne fun h => hpo h.symm]
      · refine List.map_congr_left fun o ho => ?_
        have hne : ¬c.poly_oracle = o := by
          intro h
          exact (mem_newKeys.mp ho).1 (h ▸ hmem)
        rw [ptsOf_cons_ne hne]
    · have hn' : (((ret ++ [(⟨c.poly_oracle, [c.point]⟩ :
          PolyOracleGroupedPair O Pt)]).map (·.poly_oracle))).Nodup := by
        rw [List.map_append, List.nodup_append]
        refine ⟨hn, List.nodup_singleton _, ?_⟩
        intro a ha hb
        simp only [List.map_cons, List.map_nil, List.mem_singleton] at hb
        exact hmem (hb ▸ ha)
      rw [addPointToPoly_of_not_mem hmem, ih _ hn', List.map_append,
        List.map_append]
      simp only [newKeys, if_neg hmem, List.map_cons, List.map_nil]
      have e1 : ret.map (fun p =>
          (⟨p.poly_oracle, insertAll p.points (ptsOf p.poly_oracle (c :: cs))⟩ :
            PolyOracleGroupedPair O Pt)) = ret.map (fun p =>
          ⟨p.poly_oracle, insertAll p.points (ptsOf p.poly_oracle cs)⟩) := by
        refine List.map_congr_left fun p hp => ?_
        have hpo : ¬c.poly_oracle = p.poly_oracle := by
          intro h
          exact hmem (h ▸ List.mem_map_of_mem (·.poly_oracle) hp)
        rw [ptsOf_cons_ne hpo]
      have e2 : (⟨c.poly_oracle, insertAll []
          (ptsOf c.poly_oracle (c :: cs))⟩ : PolyOracleGroupedPair O Pt) =
          ⟨c.poly_oracle, insertAll [c.point] (ptsOf c.poly_oracle cs)⟩ := by
        rw [ptsOf_cons_self rfl]
        rfl
      have e3 : (newKeys (·.poly_oracle)
            (ret.map (·.poly_oracle) ++ [c.poly_oracle]) cs).map
            (fun o => (⟨o, insertAll [] (ptsOf o (c :: cs))⟩ :
              PolyOracleGroupedPair O Pt)) =
          (newKeys (·.poly_oracle)
            (ret.map (·.poly_oracle) ++ [c.poly_oracle]) cs).map
            (fun o => ⟨o, insertAll [] (ptsOf o cs)⟩) := by
        refine List.map_congr_left fun o ho => ?_
        have hne : ¬c.poly_oracle = o := by
          intro h
          exact (mem_newKeys.mp ho).1
            (h ▸ List.mem_append.mpr (Or.inr (List.mem_singleton_self _)))
        rw [ptsOf_cons_ne hne]
      rw [e1, e2, e3]
      simp [List.append_assoc]

/-- `GroupByPoly` in closed form: one entry per distinct oracle, in
first-appearance order, carrying the sorted set of that oracle's points. -/
theorem groupByPoly_eq (claims : List (PolynomialOpening O Pt V)) :
    groupByPoly claims =
      (newKeys (·.poly_oracle) [] claims).map
        (fun o => ⟨o, oraclePointSet claims o⟩) := by
  rw [groupByPoly, foldl_addPointToPoly claims [] List.nodup_nil]
  rfl

end Grouper

namespace Grouper

variable {O Pt V : Type} [DecidableEq O] [LinearOrder Pt] [DecidableEq V]

/-- The oracles of all pass-one pairs carrying point set `pts`, in order. -/
def orsOf (pts : List Pt) (ps : List (PolyOracleGroupedPair O Pt)) : List O :=
  (ps.filter fun p => p.points = pts).map (·.poly_oracle)

theorem orsOf_cons_self {pts : List Pt} {p : PolyOracleGroupedPair O Pt}
    {ps : List (PolyOracleGroupedPair O Pt)} (h : p.points = pts) :
    orsOf pts (p :: ps) = p.poly_oracle :: orsOf pts ps := by
  simp [orsOf, List.filter_cons, h]

theorem orsOf_cons_ne {pts : List Pt} {p : PolyOracleGroupedPair O Pt}
    {ps : List (PolyOracleGroupedPair O Pt)} (h : ¬p.points = pts) :
    orsOf pts (p :: ps) = orsOf pts ps := by
  simp [orsOf, List.filter_cons, h]

theorem addPolyToPoints_of_not_mem {pts : List Pt} {o : O} :
    ∀ {ret : List (PointGroupedPair O Pt)},
      pts ∉ ret.map (·.points) →
      addPolyToPoints pts o ret = ret ++ [⟨pts, [o]⟩] := by
  intro ret
  induction ret with
  | nil => intro _; rfl
  | cons g gs ih =>
    intro h
    simp only [List.map_cons, List.mem_cons] at h
    push_neg at h
    rw [addPolyToPoints, if_neg (fun hg => h.1 hg.symm), ih h.2,
      List.cons_append]

theorem addPolyToPoints_of_mem {pts : List Pt} {o : O} :
    ∀ {ret : List (PointGroupedPair O Pt)},
      (ret.map (·.points)).Nodup →
      pts ∈ ret.map (·.points) →
      addPolyToPoints pts o ret =
        ret.map fun g =>
          if g.points = pts then ⟨g.points, g.polys ++ [o]⟩ else g := by
  intro ret
  induction ret with
  | nil => intro _ h; simp at h
  | cons g gs ih =>
    intro hn h
    simp only [List.map_cons, List.nodup_cons] at hn
    by_cases hg : g.points = pts
    · rw [addPolyToPoints, if_pos hg, List.map_cons, if_pos hg]
      congr 1
      have hgs : ∀ q ∈ gs, ¬q.points = pts := by
        intro q hq hqp
        exact hn.1 (hg ▸ hqp ▸ List.mem_map_of_mem (·.points) hq)
      have hmap : List.map
          (fun g => if g.points = pts
            then (⟨g.points, g.polys ++ [o]⟩ : PointGroupedPair O Pt)
            else g) gs = List.map id gs := by
        refine List.map_congr_left fun q hq => ?_
        rw [if_neg (hgs q hq)]
        rfl
      rw [hmap, List.map_id]
    · rcases List.mem_cons.mp h with h | h
      · exact absurd h.symm hg
      · rw [addPolyToPoints, if_neg hg, List.map_cons, if_neg hg, ih hn.2 h]

/-- Explicit form of the `GroupByPoints` loop. -/
theorem foldl_addPolyToPoints :
    ∀ (ps : List (PolyOracleGroupedPair O Pt))
      (ret : List (PointGroupedPair O Pt)),
      (ret.map (·.points)).Nodup →
      ps.foldl (fun ret p => addPolyToPoints p.points p.poly_oracle ret) ret =
        ret.map (fun g => ⟨g.points, g.polys ++ orsOf g.points ps⟩)
          ++ (newKeys (·.points) (ret.map (·.points)) ps).map
              (fun pts => ⟨pts, orsOf pts ps⟩) := by
  intro ps
  induction ps with
  | nil =>
    intro ret hn
    have hid : (fun (g : PointGroupedPair O Pt) =>
        (⟨g.points, g.polys ++
          orsOf g.points ([] : List (PolyOracleGroupedPair O Pt))⟩ :
          PointGroupedPair O Pt)) = id := by
      funext g; cases g; simp [orsOf]
    simp only [List.foldl_nil, newKeys, List.map_nil, List.append_nil, hid,
      List.map_id]
  | cons p ps ih =>
    intro ret hn
    rw [List.foldl_cons]
    by_cases hmem : p.points ∈ ret.map (·.points)
    · have hmap : ((ret.map (fun g => if g.points = p.points
          then (⟨g.points, g.polys ++ [p.poly_oracle]⟩ : PointGroupedPair O Pt)
          else g)).map (·.points)) = ret.map (·.points) := by
        rw [List.map_map]
        refine List.map_congr_left fun g _ => ?_
        by_cases hg : g.points = p.points
        · simp only [Function.comp_apply, if_pos hg]
        · simp only [Function.comp_apply, if_neg hg]
      rw [addPolyToPoints_of_mem hn hmem, ih _ (by rw [hmap]; exact hn), hmap,
        List.map_map]
      simp only [newKeys, if_pos hmem]
      congr 1
      · refine List.map_congr_left fun g _ => ?_
        by_cases hg : g.points = p.points
        · simp only [Function.comp_apply, if_pos hg]
          rw [hg, orsOf_cons_self rfl]
          simp [List.append_assoc]
        · simp only [Function.comp_apply, if_neg hg]
          rw [orsOf_cons_ne fun h => hg h.symm]
      · refine List.map_congr_left fun pts hpts => ?_
        have hne : ¬p.points = pts := by
          intro h
          exact (mem_newKeys.mp hpts).1 (h ▸ hmem)
        rw [orsOf_cons_ne hne]
    · have hn' : (((ret ++ [(⟨p.points, [p.poly_oracle]⟩ :
          PointGroupedPair O Pt)]).map (·.points))).Nodup := by
        rw [List.map_append, List.nodup_append]
        refine ⟨hn, List.nodup_singleton _, ?_⟩
        intro a ha hb
        simp only [List.map_cons, List.map_nil, List.mem_singleton] at hb
        exact hmem (hb ▸ ha)
      rw [addPolyToPoints_of_not_mem hmem, ih _ hn', List.map_append,
        List.map_append]
      simp only [newKeys, if_neg hmem, List.map_cons, List.map_nil]
      have e1 : ret.map (fun g =>
          (⟨g.points, g.polys ++ orsOf g.points (p :: ps)⟩ :
            PointGroupedPair O Pt)) = ret.map (fun g =>
          ⟨g.points, g.polys ++ orsOf g.points ps⟩) := by
        refine List.map_congr_left fun g hg => ?_
        have hgp : ¬p.points = g.points := by
          intro h
          exact hmem (h ▸ List.mem_map_of_mem (·.points) hg)
        rw [orsOf_cons_ne hgp]
      have e2 : (⟨p.points, orsOf p.points (p :: ps)⟩ :
          PointGroupedPair O Pt) =
          ⟨p.points, [p.poly_oracle] ++ orsOf p.points ps⟩ := by
        rw [orsOf_cons_self rfl]
        rfl
      have e3 : (newKeys (·.points)
            (ret.map (·.points) ++ [p.points]) ps).map
            (fun pts => (⟨pts, orsOf pts (p :: ps)⟩ : PointGroupedPair O Pt)) =
          (newKeys (·.points)
            (ret.map (·.points) ++ [p.points]) ps).map
            (fun pts => ⟨pts, orsOf pts ps⟩) := by
        refine List.map_congr_left fun pts hpts => ?_
        have hne : ¬p.points = pts := by
          intro h
          exact (mem_newKeys.mp hpts).1
            (h ▸ List.mem_append.mpr (Or.inr (List.mem_singleton_self _)))
        rw [orsOf_cons_ne hne]
      rw [e1, e2, e3]
      simp [List.append_assoc]

/-- `GroupByPoints` in closed form: one group per distinct point set, in
first-appearance order, collecting the pairs' oracles in order. -/
theorem groupByPoints_eq (ps : List (PolyOracleGroupedPair O Pt)) :
    groupByPoints ps =
      (newKeys (·.points) [] ps).map (fun pts => ⟨pts, orsOf pts ps⟩) := by
  rw [groupByPoints, foldl_addPolyToPoints ps [] List.nodup_nil]
  rfl

end Grouper

namespace Grouper

variable {O Pt V : Type} [DecidableEq O] [LinearOrder Pt] [DecidableEq V]

/-- The distinct oracles of the input claims, in order of each oracle's
first appearance in the input. -/
def specOracleOrder (claims : List (PolynomialOpening O Pt V)) : List O :=
  newKeys (·.poly_oracle) [] claims

/-- The distinct oracle point-sets, ordered by the first input claim whose
oracle carries that point set. -/
def specPointSetOrder (claims : List (PolynomialOpening O Pt V)) :
    List (List Pt) :=
  newKeys (fun c => oraclePointSet claims c.poly_oracle) [] claims

/-- The grouping the spec describes: one group per distinct point set, in
order of the first input claim whose oracle has that point set, listing the
oracles with that point set in order of their first appearance. -/
def specGroups (claims : List (PolynomialOpening O Pt V)) :
    List (PointGroupedPair O Pt) :=
  (specPointSetOrder claims).map fun pts =>
    ⟨pts, (specOracleOrder claims).filter
      fun o => oraclePointSet claims o = pts⟩

/-- The two grouping passes compute exactly the groups of `specGroups`,
in that order. -/
theorem groupByPoints_groupByPoly (claims : List (PolynomialOpening O Pt V)) :
    groupByPoints (groupByPoly claims) = specGroups claims := by
  rw [groupByPoly_eq, groupByPoints_eq, newKeys_map]
  have hkeys : newKeys
      (fun o => ((⟨o, oraclePointSet claims o⟩ :
        PolyOracleGroupedPair O Pt)).points) ([] : List (List Pt))
      (newKeys (·.poly_oracle) [] claims) =
      specPointSetOrder claims := by
    rw [newKeys_newKeys (fun k hk => absurd hk (List.not_mem_nil k))]
    rfl
  rw [hkeys, specGroups]
  refine List.map_congr_left fun pts _ => ?_
  congr 1
  rw [orsOf, List.filter_map, List.map_map]
  have h1 : ((fun p : PolyOracleGroupedPair O Pt => decide (p.points = pts)) ∘
      (fun o : O => (⟨o, oraclePointSet claims o⟩ :
        PolyOracleGroupedPair O Pt))) =
      fun o : O => decide (oraclePointSet claims o = pts) := by
    funext o
    rfl
  have h2 : ((fun p : PolyOracleGroupedPair O Pt => p.poly_oracle) ∘
      (fun o : O => (⟨o, oraclePointSet claims o⟩ :
        PolyOracleGroupedPair O Pt))) = id := by
    funext o
    rfl
  rw [h1, h2, List.map_id]
  rfl

end Grouper

namespace Grouper

variable {O Pt V : Type} [DecidableEq O] [LinearOrder Pt] [DecidableEq V]

theorem mem_specOracleOrder {o : O} {claims : List (PolynomialOpening O Pt V)} :
    o ∈ specOracleOrder claims ↔ ∃ c ∈ claims, c.poly_oracle = o := by
  rw [specOracleOrder, mem_newKeys]
  simp [List.mem_map, eq_comm]

theorem nodup_specOracleOrder {claims : List (PolynomialOpening O Pt V)} :
    (specOracleOrder claims).Nodup :=
  nodup_newKeys

theorem mem_specPointSetOrder {pts : List Pt}
    {claims : List (PolynomialOpening O Pt V)} :
    pts ∈ specPointSetOrder claims ↔
      ∃ c ∈ claims, oraclePointSet claims c.poly_oracle = pts := by
  rw [specPointSetOrder, mem_newKeys]
  simp [List.mem_map, eq_comm]

theorem nodup_specPointSetOrder {claims : List (PolynomialOpening O Pt V)} :
    (specPointSetOrder claims).Nodup :=
  nodup_newKeys

/-- Two sorted duplicate-free lists with the same members are equal. -/
theorem sorted_eq_of_mem_iff {l₁ l₂ : List Pt} (h₁ : l₁.Sorted (· < ·))
    (h₂ : l₂.Sorted (· < ·)) (h : ∀ x, x ∈ l₁ ↔ x ∈ l₂) : l₁ = l₂ := by
  haveI : IsAntisymm Pt (· < ·) :=
    ⟨fun a b hab hba => absurd hba (lt_asymm hab)⟩
  exact List.eq_of_perm_of_sorted
    ((List.perm_ext_iff_of_nodup h₁.nodup h₂.nodup).mpr h) h₁ h₂

end Grouper

namespace Grouper

variable {O Pt V : Type} [DecidableEq O] [LinearOrder Pt] [DecidableEq V]

/-- The grouper pipeline in closed form: one output group per distinct
oracle point-set, in first-appearance order, with all lookups spelt out. -/
theorem groupByPolyAndPoints_closed (claims : List (PolynomialOpening O Pt V)) :
    groupByPolyAndPoints claims =
      (specPointSetOrder claims).map fun pts =>
        ⟨((specOracleOrder claims).filter
            fun o => oraclePointSet claims o = pts).map
          fun o => ⟨o, pts.map fun x => getOpeningFromPolyOpenings claims o x⟩,
         pts⟩ := by
  rw [groupByPolyAndPoints, groupByPoints_groupByPoly, specGroups,
    createMultiPolynomialOpenings, List.map_map]
  rfl

theorem superPointSet_eq (claims : List (PolynomialOpening O Pt V)) :
    superPointSet claims = insertAll [] (claims.map (·.point)) := by
  rw [superPointSet, insertAll, List.foldl_map]

theorem mem_superPointSet {x : Pt} {claims : List (PolynomialOpening O Pt V)} :
    x ∈ superPointSet claims ↔ ∃ c ∈ claims, c.point = x := by
  rw [superPointSet_eq, mem_insertAll]
  simp [List.mem_map, eq_comm]

theorem sorted_superPointSet {claims : List (PolynomialOpening O Pt V)} :
    (superPointSet claims).Sorted (· < ·) := by
  rw [superPointSet_eq]
  exact sorted_insertAll List.sorted_nil

/-- The oracle row of each emitted group, after materialization. -/
theorem oracles_of_closed_group (claims : List (PolynomialOpening O Pt V))
    (pts : List Pt) :
    ((⟨((specOracleOrder claims).filter
          fun o => oraclePointSet claims o = pts).map
        fun o => ⟨o, pts.map fun x => getOpeningFromPolyOpenings claims o x⟩,
       pts⟩ : GroupedPolynomialOpenings O Pt V).poly_openings_vec.map
        (·.poly_oracle)) =
      (specOracleOrder claims).filter
        fun o => oraclePointSet claims o = pts := by
  rw [List.map_map]
  have : ((fun p : PolynomialOpenings O V => p.poly_oracle) ∘
      (fun o : O => (⟨o, pts.map fun x =>
        getOpeningFromPolyOpenings claims o x⟩ : PolynomialOpenings O V))) =
      id := by
    funext o
    rfl
  rw [this, List.map_id]

theorem countP_eq_one_of_nodup {κ : Type} [DecidableEq κ] {a : κ} :
    ∀ {l : List κ}, l.Nodup → a ∈ l →
      l.countP (fun x => decide (a = x)) = 1 := by
  intro l
  induction l with
  | nil => intro _ h; simp at h
  | cons b l ih =>
    intro hn ha
    rw [List.nodup_cons] at hn
    rw [List.countP_cons]
    by_cases hab : a = b
    · rw [if_pos (by simpa using hab)]
      have : l.countP (fun x => decide (a = x)) = 0 := by
        rw [List.countP_eq_zero]
        intro x hx hax
        exact hn.1 (hab ▸ (by simpa using hax : a = x) ▸ hx)
      rw [this]
    · rw [if_neg (by simpa using hab)]
      rcases List.mem_cons.mp ha with h | h
      · exact absurd h hab
      · simp only [Nat.add_zero]
        exact ih hn.2 h

end Grouper

namespace Grouper

variable {O Pt V : Type} [DecidableEq O] [LinearOrder Pt] [DecidableEq V]

/-- Materialization of one group keyed by its point set. -/
def materializeGroup (claims : List (PolynomialOpening O Pt V))
    (pts : List Pt) : GroupedPolynomialOpenings O Pt V :=
  ⟨((specOracleOrder claims).filter
      fun o => oraclePointSet claims o = pts).map
    fun o => ⟨o, pts.map fun x => getOpeningFromPolyOpenings claims o x⟩,
   pts⟩

theorem groupByPolyAndPoints_eq_map (claims : List (PolynomialOpening O Pt V)) :
    groupByPolyAndPoints claims =
      (specPointSetOrder claims).map (materializeGroup claims) :=
  groupByPolyAndPoints_closed claims

theorem oracles_materializeGroup {claims : List (PolynomialOpening O Pt V)}
    {pts : List Pt} :
    ((materializeGroup claims pts).poly_openings_vec.map (·.poly_oracle)) =
      (specOracleOrder claims).filter
        fun o => oraclePointSet claims o = pts :=
  oracles_of_closed_group claims pts

theorem point_refs_sorted_of_mem {claims : List (PolynomialOpening O Pt V)}
    {g : GroupedPolynomialOpenings O Pt V}
    (hg : g ∈ groupByPolyAndPoints claims) :
    g.point_refs.Sorted (· < ·) := by
  rw [groupByPolyAndPoints_eq_map] at hg
  rcases List.mem_map.mp hg with ⟨pts, hpts, rfl⟩
  rcases mem_specPointSetOrder.mp hpts with ⟨c, _, hc⟩
  show pts.Sorted (· < ·)
  rw [← hc]
  exact sorted_oraclePointSet

end Grouper

namespace Grouper

variable {O Pt V : Type} [DecidableEq O] [LinearOrder Pt] [DecidableEq V]

/-- **C10.** The Grouper's output order is fully determined by first
appearance in the input: groups are emitted in the order of the first
input claim whose oracle carries that point set (`specPointSetOrder`),
and within each group the oracles appear in order of their first
appearance in the input (`specOracleOrder`, filtered); the output is the
deterministic function `createMultiPolynomialOpenings` of these, so two
runs on the same input produce identical group and oracle orderings. -/
theorem grouper_output_order_deterministic
    (claims : List (PolynomialOpening O Pt V)) :
    groupByPolyAndPoints claims =
      createMultiPolynomialOpenings claims (specGroups claims) := by
  rw [groupByPolyAndPoints, groupByPoints_groupByPoly]

/-- **C7.** Every emitted group's point list is sorted ascending and
contains each of its points exactly once, and two groups' point sequences
are equal iff they represent the same set of point values. -/
theorem group_points_canonical (claims : List (PolynomialOpening O Pt V))
    (g₁ g₂ : GroupedPolynomialOpenings O Pt V)
    (h₁ : g₁ ∈ groupByPolyAndPoints claims)
    (h₂ : g₂ ∈ groupByPolyAndPoints claims) :
    (g₁.point_refs.Sorted (· < ·) ∧
      ∀ x ∈ g₁.point_refs, g₁.point_refs.count x = 1) ∧
    (g₁.point_refs = g₂.point_refs ↔
      ∀ x : Pt, x ∈ g₁.point_refs ↔ x ∈ g₂.point_refs) := by
  have hs₁ := point_refs_sorted_of_mem h₁
  have hs₂ := point_refs_sorted_of_mem h₂
  refine ⟨⟨hs₁, fun x hx => List.count_eq_one_of_mem hs₁.nodup hx⟩, ?_, ?_⟩
  · intro he x
    rw [he]
  · intro hm
    exact sorted_eq_of_mem_iff hs₁ hs₂ hm

/-- **C6.** After grouping, the super point set is sorted with no
duplicates, and its members are exactly the union of the groups' point
lists, which are exactly the points referenced by the input claims. -/
theorem superPointSet_spec (claims : List (PolynomialOpening O Pt V)) :
    (superPointSet claims).Sorted (· < ·) ∧
    (superPointSet claims).Nodup ∧
    (∀ x : Pt, x ∈ superPointSet claims ↔
      ∃ g ∈ groupByPolyAndPoints claims, x ∈ g.point_refs) ∧
    (∀ x : Pt, x ∈ superPointSet claims ↔ ∃ c ∈ claims, c.point = x) := by
  refine ⟨sorted_superPointSet, sorted_superPointSet.nodup, ?_,
    fun x => mem_superPointSet⟩
  intro x
  rw [mem_superPointSet]
  constructor
  · rintro ⟨c, hc, hx⟩
    refine ⟨materializeGroup claims (oraclePointSet claims c.poly_oracle),
      ?_, ?_⟩
    · rw [groupByPolyAndPoints_eq_map]
      exact List.mem_map_of_mem _ (mem_specPointSetOrder.mpr ⟨c, hc, rfl⟩)
    · show x ∈ oraclePointSet claims c.poly_oracle
      exact mem_oraclePointSet.mpr ⟨c, hc, rfl, hx⟩
  · rintro ⟨g, hg, hx⟩
    rw [groupByPolyAndPoints_eq_map] at hg
    rcases List.mem_map.mp hg with ⟨pts, hpts, rfl⟩
    rcases mem_specPointSetOrder.mp hpts with ⟨c₀, _, hc₀⟩
    have hx' : x ∈ oraclePointSet claims c₀.poly_oracle := by
      rw [hc₀]
      exact hx
    rcases mem_oraclePointSet.mp hx' with ⟨c, hc, _, hcx⟩
    exact ⟨c, hc, hcx⟩

/-- **C1.** `GroupByPolyAndPoints` partitions the claims: every input
claim's oracle lies in exactly one output group, and two claims' oracles
share a group iff the point sets collected for their oracles are
identical as sets of point values. -/
theorem grouper_partitions (claims : List (PolynomialOpening O Pt V))
    (c₁ c₂ : PolynomialOpening O Pt V)
    (h₁ : c₁ ∈ claims) (h₂ : c₂ ∈ claims) :
    ((groupByPolyAndPoints claims).countP
        (fun g => decide (c₁.poly_oracle ∈
          g.poly_openings_vec.map (·.poly_oracle))) = 1) ∧
    ((∃ g ∈ groupByPolyAndPoints claims,
        c₁.poly_oracle ∈ g.poly_openings_vec.map (·.poly_oracle) ∧
        c₂.poly_oracle ∈ g.poly_openings_vec.map (·.poly_oracle)) ↔
      ∀ x : Pt,
        (∃ c ∈ claims, c.poly_oracle = c₁.poly_oracle ∧ c.point = x) ↔
        (∃ c ∈ claims, c.poly_oracle = c₂.poly_oracle ∧ c.point = x)) := by
  constructor
  · rw [groupByPolyAndPoints_eq_map, List.countP_map]
    have hpred : ∀ pts ∈ specPointSetOrder claims,
        (((fun g : GroupedPolynomialOpenings O Pt V =>
            decide (c₁.poly_oracle ∈
              g.poly_openings_vec.map (·.poly_oracle))) ∘
          materializeGroup claims) pts) = true ↔
        (decide (oraclePointSet claims c₁.poly_oracle = pts) = true) := by
      intro pts _
      simp only [Function.comp_apply, oracles_materializeGroup,
        decide_eq_true_eq]
      constructor
      · intro hmem
        simpa using (List.mem_filter.mp hmem).2
      · intro heq
        exact List.mem_filter.mpr
          ⟨mem_specOracleOrder.mpr ⟨c₁, h₁, rfl⟩, by simpa using heq⟩
    rw [List.countP_congr hpred]
    exact countP_eq_one_of_nodup nodup_specPointSetOrder
      (mem_specPointSetOrder.mpr ⟨c₁, h₁, rfl⟩)
  · constructor
    · rintro ⟨g, hg, ho1, ho2⟩
      rw [groupByPolyAndPoints_eq_map] at hg
      rcases List.mem_map.mp hg with ⟨pts, _, rfl⟩
      rw [oracles_materializeGroup] at ho1 ho2
      have e1 : oraclePointSet claims c₁.poly_oracle = pts := by
        simpa using (List.mem_filter.mp ho1).2
      have e2 : oraclePointSet claims c₂.poly_oracle = pts := by
        simpa using (List.mem_filter.mp ho2).2
      intro x
      rw [← mem_oraclePointSet, ← mem_oraclePointSet, e1, e2]
    · intro hiff
      have heq : oraclePointSet claims c₁.poly_oracle =
          oraclePointSet claims c₂.poly_oracle := by
        refine sorted_eq_of_mem_iff sorted_oraclePointSet
          sorted_oraclePointSet fun x => ?_
        rw [mem_oraclePointSet, mem_oraclePointSet]
        exact hiff x
      refine ⟨materializeGroup claims (oraclePointSet claims c₁.poly_oracle),
        ?_, ?_, ?_⟩
      · rw [groupByPolyAndPoints_eq_map]
        exact List.mem_map_of_mem _ (mem_specPointSetOrder.mpr ⟨c₁, h₁, rfl⟩)
      · rw [oracles_materializeGroup]
        exact List.mem_filter.mpr
          ⟨mem_specOracleOrder.mpr ⟨c₁, h₁, rfl⟩, by simp⟩
      · rw [oracles_materializeGroup]
        exact List.mem_filter.mpr
          ⟨mem_specOracleOrder.mpr ⟨c₂, h₂, rfl⟩, by simp [heq]⟩

end Grouper

namespace Grouper

variable {O Pt V : Type} [DecidableEq O] [LinearOrder Pt] [DecidableEq V]

/-- **C4 (amended).** The Grouper performs no inconsistency check.
It always produces groups; each entry of a group's value row is the
value of the first input claim on that `(oracle, point)` pair
(`getOpeningFromPolyOpenings` is a `find?`), and every lookup
succeeds, so the C++ `CHECK` never fires. -/
theorem grouper_uses_first_claim_value
    (claims : List (PolynomialOpening O Pt V))
    (g : GroupedPolynomialOpenings O Pt V)
    (hg : g ∈ groupByPolyAndPoints claims)
    (po : PolynomialOpenings O V) (hpo : po ∈ g.poly_openings_vec) :
    po.openings = g.point_refs.map
      (fun x => getOpeningFromPolyOpenings claims po.poly_oracle x) ∧
    ∀ v ∈ po.openings, v.isSome = true := by
  rw [groupByPolyAndPoints_eq_map] at hg
  rcases List.mem_map.mp hg with ⟨pts, hpts, rfl⟩
  rcases List.mem_map.mp hpo with ⟨o, ho, rfl⟩
  refine ⟨rfl, ?_⟩
  intro v hv
  rcases List.mem_map.mp hv with ⟨x, hx, rfl⟩
  have hpset : oraclePointSet claims o = pts := by
    simpa using (List.mem_filter.mp ho).2
  have hx' : x ∈ oraclePointSet claims o := by
    rw [hpset]
    exact hx
  rcases mem_oraclePointSet.mp hx' with ⟨c, hc, hco, hcx⟩
  rw [getOpeningFromPolyOpenings, Option.isSome_map']
  rw [List.find?_isSome]
  exact ⟨c, hc, by simp [hco, hcx]⟩

/-- The S4 input: two claims on the same oracle and point with differing
claimed values. -/
def claims4 : List (PolynomialOpening ℕ ℕ ℕ) := [⟨0, 0, 5⟩, ⟨0, 0, 6⟩]

/-- **C4 (counterexample).** On two claims `(P, x, 5)` and `(P, x, 6)` the
Grouper does not fail: it emits one group whose single value row holds the
first claim's value `5`. -/
theorem inconsistent_claims_not_rejected :
    groupByPolyAndPoints claims4 =
      [⟨[⟨0, [some 5]⟩], [0]⟩] ∧
    (groupByPolyAndPoints claims4).length = 1 := by
  constructor
  · rfl
  · rfl

/-- **C4 (witness).** The amended theorem applied at the S4 input. -/
theorem grouper_uses_first_claim_value_witness :
    ((⟨[⟨0, [some 5]⟩], [0]⟩ : GroupedPolynomialOpenings ℕ ℕ ℕ) ∈
        groupByPolyAndPoints claims4) ∧
    ((⟨0, [some 5]⟩ : PolynomialOpenings ℕ ℕ) ∈
        (⟨[⟨0, [some 5]⟩], [0]⟩ :
          GroupedPolynomialOpenings ℕ ℕ ℕ).poly_openings_vec) ∧
    ((⟨0, [some 5]⟩ : PolynomialOpenings ℕ ℕ).openings =
      (⟨[⟨0, [some 5]⟩], [0]⟩ :
        GroupedPolynomialOpenings ℕ ℕ ℕ).point_refs.map
        (fun x => getOpeningFromPolyOpenings claims4
          (⟨0, [some 5]⟩ : PolynomialOpenings ℕ ℕ).poly_oracle x) ∧
      ∀ v ∈ (⟨0, [some 5]⟩ : PolynomialOpenings ℕ ℕ).openings,
        v.isSome = true) :=
  ⟨by decide, by decide,
    grouper_uses_first_claim_value claims4 _ (by decide) _ (by decide)⟩

end Grouper

namespace Grouper

/-- The S2-style input used by the grouper witnesses: oracle 0 opened at
points 1 and 2, oracle 1 at point 1, oracle 2 at point 3. -/
def wclaims : List (PolynomialOpening ℕ ℕ ℕ) :=
  [⟨0, 1, 10⟩, ⟨0, 2, 11⟩, ⟨1, 1, 12⟩, ⟨2, 3, 13⟩]

/-- **C1 (witness).** The partition theorem applied at a concrete input. -/
theorem grouper_partitions_witness :
    ((⟨0, 1, 10⟩ : PolynomialOpening ℕ ℕ ℕ) ∈ wclaims) ∧
    ((⟨0, 2, 11⟩ : PolynomialOpening ℕ ℕ ℕ) ∈ wclaims) ∧
    (((groupByPolyAndPoints wclaims).countP
        (fun g => decide ((⟨0, 1, 10⟩ :
          PolynomialOpening ℕ ℕ ℕ).poly_oracle ∈
          g.poly_openings_vec.map (·.poly_oracle))) = 1) ∧
      ((∃ g ∈ groupByPolyAndPoints wclaims,
          (⟨0, 1, 10⟩ : PolynomialOpening ℕ ℕ ℕ).poly_oracle ∈
            g.poly_openings_vec.map (·.poly_oracle) ∧
          (⟨0, 2, 11⟩ : PolynomialOpening ℕ ℕ ℕ).poly_oracle ∈
            g.poly_openings_vec.map (·.poly_oracle)) ↔
        ∀ x : ℕ,
          (∃ c ∈ wclaims, c.poly_oracle =
            (⟨0, 1, 10⟩ : PolynomialOpening ℕ ℕ ℕ).poly_oracle ∧
            c.point = x) ↔
          (∃ c ∈ wclaims, c.poly_oracle =
            (⟨0, 2, 11⟩ : PolynomialOpening ℕ ℕ ℕ).poly_oracle ∧
            c.point = x))) :=
  ⟨by decide, by decide,
    grouper_partitions wclaims _ _ (by decide) (by decide)⟩

/-- The first two groups the grouper emits on `wclaims`. -/
def wgroup1 : GroupedPolynomialOpenings ℕ ℕ ℕ :=
  ⟨[⟨0, [some 10, some 11]⟩], [1, 2]⟩

def wgroup2 : GroupedPolynomialOpenings ℕ ℕ ℕ :=
  ⟨[⟨1, [some 12]⟩], [1]⟩

/-- **C7 (witness).** The canonical-points theorem applied at two concrete
emitted groups. -/
theorem group_points_canonical_witness :
    (wgroup1 ∈ groupByPolyAndPoints wclaims) ∧
    (wgroup2 ∈ groupByPolyAndPoints wclaims) ∧
    ((wgroup1.point_refs.Sorted (· < ·) ∧
        ∀ x ∈ wgroup1.point_refs, wgroup1.point_refs.count x = 1) ∧
      (wgroup1.point_refs = wgroup2.point_refs ↔
        ∀ x : ℕ, x ∈ wgroup1.point_refs ↔ x ∈ wgroup2.point_refs)) :=
  ⟨by decide, by decide,
    group_points_canonical wclaims wgroup1 wgroup2 (by decide) (by decide)⟩

end Grouper

namespace QB

open Polynomial

variable {F : Type} [Field F] [DecidableEq F]

/-- The fatal error kinds of the quotient construction (spec §7). -/
inductive QuotientError : Type
  | InterpolationFailure
  | DivisibilityFailure
  deriving DecidableEq

/-- `crypto::PolynomialOpenings` on the prover side: the oracle resolves
to the dense polynomial `Pᵢ` itself, with its claimed value row. -/
structure PolynomialOpenings (F : Type) [Field F] where
  poly_oracle : Polynomial F
  openings : List F

/-- `crypto::GroupedPolynomialOpenings` on the prover side. The C++
`point_refs` are deep references; `CreateOwnedPoints` copies them into
owned values, which is the identity in this value-based model. -/
structure GroupedPolynomialOpenings (F : Type) [Field F] where
  poly_openings_vec : List (QB.PolynomialOpenings F)
  point_refs : List F

/-- Modelled from the spec: the external `math::LagrangeInterpolate`
primitive (its implementation is not under `src/`). For pairwise-distinct
points and a matching number of values it returns the unique polynomial
of degree `< k` through `(xⱼ, vⱼ)` (spec §4.2 and glossary: "the unique
polynomial of degree < k agreeing with a given table of k (point, value)
pairs"); otherwise it reports failure
(`InterpolationFailure`: "non-distinct points or rank deficiency"). -/
noncomputable def lagrangeInterpolate (pts vals : List F) :
    Option (Polynomial F) :=
  if pts.Nodup ∧ pts.length = vals.length then
    some (Lagrange.interpolate Finset.univ
      (fun i : Fin pts.length => pts.get i)
      (fun i : Fin pts.length => vals.getD i.val 0))
  else none

/-- The interpolation payload, for stating properties of the result. -/
noncomputable def ldePoly (pts vals : List F) : Polynomial F :=
  Lagrange.interpolate Finset.univ
    (fun i : Fin pts.length => pts.get i)
    (fun i : Fin pts.length => vals.getD i.val 0)

/-- `GroupedPolynomialOpenings::CreateLowDegreeExtensions`: one low-degree
extension per value row over the shared `owned_points`; the C++ `CHECK`s
every interpolation, modelled by `Option`. -/
noncomputable def CreateLowDegreeExtensions
    (g : GroupedPolynomialOpenings F) (owned_points : List F) :
    Option (List (Polynomial F)) :=
  g.poly_openings_vec.mapM
    fun poly_openings => lagrangeInterpolate owned_points poly_openings.openings

/-- Modelled from the spec: `Poly::LinearizeInPlace` (not under `src/`)
combines the numerator polynomials with powers of `r`:
`N(X) = (P₀(X) - R₀(X)) + r(P₁(X) - R₁(X)) + r²(P₂(X) - R₂(X)) + …`
(spec §4.2: "powers of r, not independent challenges"). -/
noncomputable def LinearizeInPlace (polys : List (Polynomial F)) (r : F) :
    Polynomial F :=
  (polys.enum.map fun ip => Polynomial.C (r ^ ip.1) * ip.2).sum

/-- Modelled from the spec: `Poly::FromRoots` (not under `src/`), the
vanishing polynomial `Z(X) = Πⱼ (X − xⱼ)` of the point set (spec §4.2). -/
noncomputable def FromRoots (points : List F) : Polynomial F :=
  (points.map fun x => Polynomial.X - Polynomial.C x).prod

/-- Modelled from the spec: the polynomial division `n /= vanishing_poly`
(not under `src/`) with the spec's guarantee: "`Z(X)` divides `N(X)`
exactly (no remainder); if division produces a nonzero remainder the claim
set is inconsistent ⇒ `DivisibilityFailure`" (spec §4.2, §7). -/
noncomputable def dividePoly (n z : Polynomial F) :
    Except QuotientError (Polynomial F) :=
  if n %ₘ z = 0 then .ok (n /ₘ z) else .error .DivisibilityFailure

/-- `GroupedPolynomialOpenings::CombineLowDegreeExtensions`: numerators
`Pᵢ(X) − Rᵢ(X)`, combined with powers of `r`, divided by the vanishing
polynomial of the evaluation points. -/
noncomputable def CombineLowDegreeExtensions
    (g : GroupedPolynomialOpenings F) (r : F) (owned_points : List F)
    (low_degree_extensions : List (Polynomial F)) :
    Except QuotientError (Polynomial F) :=
  dividePoly
    (LinearizeInPlace
      (List.zipWith (fun poly_openings lde => poly_openings.poly_oracle - lde)
        g.poly_openings_vec low_degree_extensions) r)
    (FromRoots owned_points)

/-- `GroupedPolynomialOpenings::CreateCombinedLowDegreeExtensions`:
interpolate all rows, then combine; the low-degree extensions that the C++
returns through the out-parameter are paired with the quotient here. -/
noncomputable def CreateCombinedLowDegreeExtensions
    (g : GroupedPolynomialOpenings F) (r : F) :
    Except QuotientError (Polynomial F × List (Polynomial F)) :=
  match CreateLowDegreeExtensions g g.point_refs with
  | none => .error .InterpolationFailure
  | some ldes =>
    match CombineLowDegreeExtensions g r g.point_refs ldes with
    | .error e => .error e
    | .ok h => .ok (h, ldes)

end QB

namespace QB

open Polynomial

variable {F : Type} [Field F] [DecidableEq F]

theorem mapM_eq_some_of_forall {α β : Type} {f : α → Option β} {h : α → β} :
    ∀ {l : List α}, (∀ a ∈ l, f a = some (h a)) →
      l.mapM f = some (l.map h) := by
  intro l
  induction l with
  | nil => intro _; rfl
  | cons a l ih =>
    intro hall
    rw [List.mapM_cons, hall a (List.mem_cons_self a l),
      ih fun b hb => hall b (List.mem_cons_of_mem a hb)]
    rfl

theorem lagrangeInterpolate_eq {pts vals : List F} (hnd : pts.Nodup)
    (hlen : pts.length = vals.length) :
    lagrangeInterpolate pts vals = some (ldePoly pts vals) := by
  rw [lagrangeInterpolate, if_pos ⟨hnd, hlen⟩]
  rfl

theorem injOn_get_of_nodup {pts : List F} (hnd : pts.Nodup) :
    Set.InjOn (fun i : Fin pts.length => pts.get i)
      ↑(Finset.univ : Finset (Fin pts.length)) := by
  intro a _ b _ hab
  exact List.nodup_iff_injective_get.mp hnd hab

theorem ldePoly_eval {pts vals : List F} (hnd : pts.Nodup)
    (j : Fin pts.length) :
    (ldePoly pts vals).eval (pts.get j) = vals.getD j.val 0 :=
  Lagrange.eval_interpolate_at_node _ (injOn_get_of_nodup hnd)
    (Finset.mem_univ j)

theorem ldePoly_degree {pts vals : List F} (hnd : pts.Nodup) :
    (ldePoly pts vals).degree < (pts.length : WithBot ℕ) := by
  have h := Lagrange.degree_interpolate_lt
    (fun i : Fin pts.length => vals.getD i.val 0) (injOn_get_of_nodup hnd)
  rw [Finset.card_univ, Fintype.card_fin] at h
  exact h

theorem eval_list_sum (l : List (Polynomial F)) (x : F) :
    l.sum.eval x = (l.map fun p => p.eval x).sum := by
  induction l with
  | nil => simp
  | cons p l ih => simp [ih]

theorem LinearizeInPlace_eval_eq_zero {polys : List (Polynomial F)} {r x : F}
    (h : ∀ p ∈ polys, p.eval x = 0) :
    (LinearizeInPlace polys r).eval x = 0 := by
  rw [LinearizeInPlace, eval_list_sum, List.map_map]
  refine List.sum_eq_zero fun y hy => ?_
  rcases List.mem_map.mp hy with ⟨ip, hip, rfl⟩
  have hp : ip.2 ∈ polys :=
    List.getElem?_mem (List.mem_enum_iff_getElem?.mp hip)
  simp [h ip.2 hp]

theorem FromRoots_eq_prod (pts : List F) :
    FromRoots pts =
      ∏ i : Fin pts.length, (X - C (pts.get i)) := by
  rw [FromRoots, ← List.ofFn_get_eq_map, List.prod_ofFn]

theorem FromRoots_monic (pts : List F) : (FromRoots pts).Monic := by
  rw [FromRoots_eq_prod]
  exact monic_prod_of_monic _ _ fun i _ => monic_X_sub_C _

theorem FromRoots_dvd {pts : List F} (hnd : pts.Nodup) {n : Polynomial F}
    (h : ∀ j : Fin pts.length, n.eval (pts.get j) = 0) :
    FromRoots pts ∣ n := by
  rw [FromRoots_eq_prod]
  refine Finset.prod_dvd_of_coprime ?_ fun i _ => ?_
  · have hinj : Function.Injective fun i : Fin pts.length => pts.get i :=
      List.nodup_iff_injective_get.mp hnd
    exact (pairwise_coprime_X_sub_C hinj).set_pairwise _
  · exact dvd_iff_isRoot.mpr (h i)

end QB

namespace QB

open Polynomial

variable {F : Type} [Field F] [DecidableEq F]

/-- **C3.** For a group whose points are pairwise distinct (and whose value
rows match the point count), `CreateLowDegreeExtensions` succeeds, and each
low-degree extension `Rᵢ` satisfies `Rᵢ(xⱼ) = vᵢ,ⱼ` for every point index
`j` and has degree `< k` (i.e. at most `k − 1`). -/
theorem low_degree_extensions_spec (g : GroupedPolynomialOpenings F)
    (hnd : g.point_refs.Nodup)
    (hlen : ∀ po ∈ g.poly_openings_vec,
      po.openings.length = g.point_refs.length) :
    CreateLowDegreeExtensions g g.point_refs =
      some (g.poly_openings_vec.map
        fun po => ldePoly g.point_refs po.openings) ∧
    ∀ po ∈ g.poly_openings_vec,
      (∀ j : Fin g.point_refs.length,
        (ldePoly g.point_refs po.openings).eval (g.point_refs.get j) =
          po.openings.getD j.val 0) ∧
      (ldePoly g.point_refs po.openings).degree <
        (g.point_refs.length : WithBot ℕ) := by
  constructor
  · exact mapM_eq_some_of_forall fun po hpo =>
      lagrangeInterpolate_eq hnd (hlen po hpo).symm
  · intro po _
    exact ⟨fun j => ldePoly_eval hnd j, ldePoly_degree hnd⟩

/-- **C2.** For a group with distinct points and value rows matching the
point count, if the claimed values equal the true evaluations
`Pᵢ(xⱼ) = vᵢ,ⱼ`, then `CreateCombinedLowDegreeExtensions` succeeds and the
returned quotient satisfies `H(X) · Z(X) = N(X)` as a polynomial identity,
with `N(X) = Σᵢ rⁱ (Pᵢ(X) − Rᵢ(X))` for the Lagrange interpolants `Rᵢ` and
`Z(X)` the monic vanishing polynomial of the group's points. -/
theorem combined_quotient_exact (g : GroupedPolynomialOpenings F) (r : F)
    (hnd : g.point_refs.Nodup)
    (hlen : ∀ po ∈ g.poly_openings_vec,
      po.openings.length = g.point_refs.length)
    (hval : ∀ po ∈ g.poly_openings_vec, ∀ j : Fin g.point_refs.length,
      po.poly_oracle.eval (g.point_refs.get j) = po.openings.getD j.val 0) :
    ∃ H ldes,
      CreateCombinedLowDegreeExtensions g r = .ok (H, ldes) ∧
      ldes = g.poly_openings_vec.map
        (fun po => ldePoly g.point_refs po.openings) ∧
      H * FromRoots g.point_refs =
        LinearizeInPlace
          (List.zipWith (fun po lde => po.poly_oracle - lde)
            g.poly_openings_vec ldes) r := by
  have hldes : CreateLowDegreeExtensions g g.point_refs =
      some (g.poly_openings_vec.map
        fun po => ldePoly g.point_refs po.openings) :=
    mapM_eq_some_of_forall fun po hpo =>
      lagrangeInterpolate_eq hnd (hlen po hpo).symm
  have hnum : List.zipWith (fun po lde => po.poly_oracle - lde)
      g.poly_openings_vec
      (g.poly_openings_vec.map
        fun po => ldePoly g.point_refs po.openings) =
      g.poly_openings_vec.map
        fun po => po.poly_oracle - ldePoly g.point_refs po.openings := by
    rw [List.zipWith_map_right, List.zipWith_same]
  have hroot : ∀ j : Fin g.point_refs.length,
      (LinearizeInPlace
        (List.zipWith (fun po lde => po.poly_oracle - lde)
          g.poly_openings_vec
          (g.poly_openings_vec.map
            fun po => ldePoly g.point_refs po.openings)) r).eval
        (g.point_refs.get j) = 0 := by
    intro j
    refine LinearizeInPlace_eval_eq_zero fun p hp => ?_
    rw [hnum] at hp
    rcases List.mem_map.mp hp with ⟨po, hpo, rfl⟩
    rw [Polynomial.eval_sub, hval po hpo j, ldePoly_eval hnd j, sub_self]
  have hdvd : FromRoots g.point_refs ∣
      LinearizeInPlace
        (List.zipWith (fun po lde => po.poly_oracle - lde)
          g.poly_openings_vec
          (g.poly_openings_vec.map
            fun po => ldePoly g.point_refs po.openings)) r :=
    FromRoots_dvd hnd hroot
  have hmod : LinearizeInPlace
      (List.zipWith (fun po lde => po.poly_oracle - lde)
        g.poly_openings_vec
        (g.poly_openings_vec.map
          fun po => ldePoly g.point_refs po.openings)) r %ₘ
      FromRoots g.point_refs = 0 :=
    (Polynomial.modByMonic_eq_zero_iff_dvd
      (FromRoots_monic g.point_refs)).mpr hdvd
  refine ⟨LinearizeInPlace
      (List.zipWith (fun po lde => po.poly_oracle - lde)
        g.poly_openings_vec
        (g.poly_openings_vec.map
          fun po => ldePoly g.point_refs po.openings)) r /ₘ
      FromRoots g.point_refs,
    g.poly_openings_vec.map fun po => ldePoly g.point_refs po.openings,
    ?_, rfl, ?_⟩
  · simp only [CreateCombinedLowDegreeExtensions, hldes,
      CombineLowDegreeExtensions, dividePoly, if_pos hmod]
  · have hdiv := Polynomial.modByMonic_add_div
      (LinearizeInPlace
        (List.zipWith (fun po lde => po.poly_oracle - lde)
          g.poly_openings_vec
          (g.poly_openings_vec.map
            fun po => ldePoly g.point_refs po.openings)) r)
      (FromRoots_monic g.point_refs)
    rw [hmod, zero_add] at hdiv
    rw [mul_comm]
    exact hdiv

/-- **C5.** If the vanishing polynomial of the points does not divide the
combined numerator exactly (the division leaves a nonzero remainder), the
quotient construction fails with `DivisibilityFailure` instead of
returning a quotient. -/
theorem combine_divisibility_failure (g : GroupedPolynomialOpenings F)
    (r : F) (owned_points : List F) (ldes : List (Polynomial F))
    (hrem : LinearizeInPlace
        (List.zipWith (fun po lde => po.poly_oracle - lde)
          g.poly_openings_vec ldes) r %ₘ FromRoots owned_points ≠ 0) :
    CombineLowDegreeExtensions g r owned_points ldes =
      .error .DivisibilityFailure := by
  rw [CombineLowDegreeExtensions, dividePoly, if_neg hrem]

end QB

namespace QB

open Polynomial

variable {F : Type} [Field F] [DecidableEq F]

theorem LinearizeInPlace_singleton (p : Polynomial F) (r : F) :
    LinearizeInPlace [p] r = p := by
  simp [LinearizeInPlace, List.enum, List.enumFrom]

theorem FromRoots_singleton (x : F) :
    FromRoots [x] = Polynomial.X - Polynomial.C x := by
  simp [FromRoots]

/-- The S1 group: `P(X) = 2X + 3`, one point `x₀ = 5`, claimed value 13. -/
noncomputable def s1Group : GroupedPolynomialOpenings ℚ :=
  ⟨[⟨Polynomial.C 2 * Polynomial.X + Polynomial.C 3, [13]⟩], [5]⟩

/-- A deliberately inconsistent single opening: `P(X) = X` with claimed
value 1 at the point 0, whose true evaluation is 0. -/
noncomputable def badGroup : GroupedPolynomialOpenings ℚ :=
  ⟨[⟨Polynomial.X, [1]⟩], [0]⟩

noncomputable def badLdes : List (Polynomial ℚ) := [Polynomial.C 1]

/-- **C2 (witness).** The quotient-exactness theorem applied at S1. -/
theorem combined_quotient_exact_witness :
    s1Group.point_refs.Nodup ∧
    (∀ po ∈ s1Group.poly_openings_vec,
      po.openings.length = s1Group.point_refs.length) ∧
    (∀ po ∈ s1Group.poly_openings_vec,
      ∀ j : Fin s1Group.point_refs.length,
        po.poly_oracle.eval (s1Group.point_refs.get j) =
          po.openings.getD j.val 0) ∧
    (∃ H ldes,
      CreateCombinedLowDegreeExtensions s1Group 7 = .ok (H, ldes) ∧
      ldes = s1Group.poly_openings_vec.map
        (fun po => ldePoly s1Group.point_refs po.openings) ∧
      H * FromRoots s1Group.point_refs =
        LinearizeInPlace
          (List.zipWith (fun po lde => po.poly_oracle - lde)
            s1Group.poly_openings_vec ldes) 7) := by
  have h1 : s1Group.point_refs.Nodup := by
    simp [s1Group]
  have h2 : ∀ po ∈ s1Group.poly_openings_vec,
      po.openings.length = s1Group.point_refs.length := by
    intro po hpo
    simp only [s1Group, List.mem_singleton] at hpo
    subst hpo
    rfl
  have h3 : ∀ po ∈ s1Group.poly_openings_vec,
      ∀ j : Fin s1Group.point_refs.length,
        po.poly_oracle.eval (s1Group.point_refs.get j) =
          po.openings.getD j.val 0 := by
    intro po hpo j
    simp only [s1Group, List.mem_singleton] at hpo
    subst hpo
    fin_cases j
    show (Polynomial.C 2 * Polynomial.X +
      Polynomial.C 3 : Polynomial ℚ).eval 5 = 13
    simp
    norm_num
  exact ⟨h1, h2, h3, combined_quotient_exact s1Group 7 h1 h2 h3⟩

/-- **C3 (witness).** The interpolation theorem applied at S1. -/
theorem low_degree_extensions_witness :
    s1Group.point_refs.Nodup ∧
    (∀ po ∈ s1Group.poly_openings_vec,
      po.openings.length = s1Group.point_refs.length) ∧
    (CreateLowDegreeExtensions s1Group s1Group.point_refs =
      some (s1Group.poly_openings_vec.map
        fun po => ldePoly s1Group.point_refs po.openings) ∧
    ∀ po ∈ s1Group.poly_openings_vec,
      (∀ j : Fin s1Group.point_refs.length,
        (ldePoly s1Group.point_refs po.openings).eval
          (s1Group.point_refs.get j) = po.openings.getD j.val 0) ∧
      (ldePoly s1Group.point_refs po.openings).degree <
        (s1Group.point_refs.length : WithBot ℕ)) := by
  have h1 : s1Group.point_refs.Nodup := by
    simp [s1Group]
  have h2 : ∀ po ∈ s1Group.poly_openings_vec,
      po.openings.length = s1Group.point_refs.length := by
    intro po hpo
    simp only [s1Group, List.mem_singleton] at hpo
    subst hpo
    rfl
  exact ⟨h1, h2, low_degree_extensions_spec s1Group h1 h2⟩

/-- **C5 (witness).** The divisibility-failure theorem applied at a
concrete inconsistent opening: `N(X) = X − 1`, `Z(X) = X`, remainder
`−1 ≠ 0`. -/
theorem combine_divisibility_failure_witness :
    (LinearizeInPlace
        (List.zipWith (fun po lde => po.poly_oracle - lde)
          badGroup.poly_openings_vec badLdes) 1 %ₘ
      FromRoots badGroup.point_refs ≠ 0) ∧
    CombineLowDegreeExtensions badGroup 1 badGroup.point_refs badLdes =
      .error .DivisibilityFailure := by
  have hzip : List.zipWith (fun po lde => po.poly_oracle - lde)
      badGroup.poly_openings_vec badLdes =
      [Polynomial.X - Polynomial.C 1] := rfl
  have hrem : LinearizeInPlace
      (List.zipWith (fun po lde => po.poly_oracle - lde)
        badGroup.poly_openings_vec badLdes) 1 %ₘ
      FromRoots badGroup.point_refs ≠ 0 := by
    rw [hzip, LinearizeInPlace_singleton]
    show (Polynomial.X - Polynomial.C 1 : Polynomial ℚ) %ₘ
      FromRoots [0] ≠ 0
    rw [FromRoots_singleton, Polynomial.modByMonic_X_sub_C_eq_C_eval]
    simp
  exact ⟨hrem,
    combine_divisibility_failure badGroup 1 badGroup.point_refs badLdes hrem⟩

end QB

namespace Lookup

open Polynomial

/-- `OpeningPointSet`: the evaluation point `x` and its rotations. -/
structure OpeningPointSet (F : Type) where
  x : F
  x_prev : F
  x_next : F

/-- `LookupPair`: an input/table pair. After `TransformEvalsToPoly`, the
permuted pair holds the coefficient-form polynomials `A'`, `S'`; the
blinding scalar attached by `PermutePair` does not take part in
`Evaluate`/`Open`, so only `poly()` is modelled. -/
structure LookupPair (α : Type) where
  input : α
  table : α

/-- `lookup::halo2::Prover` at the `Open` step: the grand-product
polynomials `Zᵢ` and the permuted pairs `(A'ᵢ, S'ᵢ)`, one per lookup
argument. -/
structure Prover (F : Type) [Field F] where
  grand_product_polys : List (Polynomial F)
  permuted_pairs : List (LookupPair (Polynomial F))

variable {F : Type} [Field F]

/-- The five opening claims `Prover::Open` emits for one lookup argument:
`Zᵢ` at `x` and `x_next`, `A'ᵢ` at `x` and `x_prev`, `S'ᵢ` at `x`, each
claim's value being the polynomial evaluated at that point (the `OPENING`
macro calls `polynomial.poly().Evaluate(point_set.point)`). -/
noncomputable def openingsOfPair
    (point_set : OpeningPointSet F)
    (gp : Polynomial F × LookupPair (Polynomial F)) :
    List (Grouper.PolynomialOpening (Polynomial F) F F) :=
  [⟨gp.1, point_set.x, gp.1.eval point_set.x⟩,
   ⟨gp.1, point_set.x_next, gp.1.eval point_set.x_next⟩,
   ⟨gp.2.input, point_set.x, gp.2.input.eval point_set.x⟩,
   ⟨gp.2.input, point_set.x_prev, gp.2.input.eval point_set.x_prev⟩,
   ⟨gp.2.table, point_set.x, gp.2.table.eval point_set.x⟩]

/-- `Prover::Open`: after `CHECK_EQ(size, permuted_pairs_.size())`, the
loop `for i in 0..size` pushes the five claims per argument onto the
caller's vector; the loop over the common index range is modelled by a
fold over the zipped state lists. -/
noncomputable def Prover.Open (p : Prover F) (point_set : OpeningPointSet F)
    (openings : List (Grouper.PolynomialOpening (Polynomial F) F F)) :
    List (Grouper.PolynomialOpening (Polynomial F) F F) :=
  (p.grand_product_polys.zip p.permuted_pairs).foldl
    (fun acc gp => acc ++ openingsOfPair point_set gp) openings

theorem foldl_append_eq {α β : Type} (f : α → List β) :
    ∀ (l : List α) (acc : List β),
      l.foldl (fun acc a => acc ++ f a) acc = acc ++ l.flatMap f := by
  intro l
  induction l with
  | nil => intro acc; simp
  | cons a l ih =>
    intro acc
    simp only [List.foldl_cons, List.flatMap_cons, ih, List.append_assoc]

theorem length_flatMap_const {α β : Type} (f : α → List β) (k : ℕ)
    (hf : ∀ a, (f a).length = k) :
    ∀ l : List α, (l.flatMap f).length = k * l.length := by
  intro l
  induction l with
  | nil => simp
  | cons a l ih =>
    simp only [List.flatMap_cons, List.length_append, hf, ih,
      List.length_cons, Nat.mul_succ, Nat.add_comm]

/-- **C8.** For a lookup prover state with `N` lookup arguments (the
`CHECK_EQ` hypothesis), `Open` appends exactly `5·N` opening claims to the
caller's list: for each argument `i`, in order, the grand product `Zᵢ` at
`x` and `x_next`, the permuted input `A'ᵢ` at `x` and `x_prev`, and the
permuted table `S'ᵢ` at `x`, each claim's value being that polynomial
evaluated at that point. -/
theorem open_emits_five_claims_per_argument (p : Prover F)
    (point_set : OpeningPointSet F)
    (openings : List (Grouper.PolynomialOpening (Polynomial F) F F))
    (h : p.grand_product_polys.length = p.permuted_pairs.length) :
    Prover.Open p point_set openings =
      openings ++ (p.grand_product_polys.zip p.permuted_pairs).flatMap
        (openingsOfPair point_set) ∧
    (Prover.Open p point_set openings).length =
      openings.length + 5 * p.grand_product_polys.length := by
  have heq : Prover.Open p point_set openings =
      openings ++ (p.grand_product_polys.zip p.permuted_pairs).flatMap
        (openingsOfPair point_set) :=
    foldl_append_eq (openingsOfPair point_set)
      (p.grand_product_polys.zip p.permuted_pairs) openings
  refine ⟨heq, ?_⟩
  rw [heq, List.length_append]
  congr 1
  rw [length_flatMap_const (openingsOfPair point_set) 5 (fun _ => rfl),
    List.length_zip, h, Nat.min_self]

end Lookup

namespace Lookup

open Polynomial

/-- A one-argument lookup prover state over `ℚ`. -/
noncomputable def wProver : Prover ℚ :=
  ⟨[Polynomial.X], [⟨Polynomial.X + Polynomial.C 1, Polynomial.X + Polynomial.C 2⟩]⟩

noncomputable def wPointSet : OpeningPointSet ℚ := ⟨1, 2, 3⟩

/-- **C8 (witness).** The theorem applied at a one-argument state. -/
theorem open_emits_five_claims_witness :
    wProver.grand_product_polys.length = wProver.permuted_pairs.length ∧
    (Prover.Open wProver wPointSet [] =
      [] ++ (wProver.grand_product_polys.zip wProver.permuted_pairs).flatMap
        (openingsOfPair wPointSet) ∧
    (Prover.Open wProver wPointSet []).length =
      List.length ([] : List (Grouper.PolynomialOpening (Polynomial ℚ) ℚ ℚ)) +
        5 * wProver.grand_product_polys.length) :=
  ⟨rfl, open_emits_five_claims_per_argument wProver wPointSet [] rfl⟩

end Lookup

namespace Circom

/-- Reading `n` bytes from a read-only buffer at cursor `off`; fails when
the buffer is too short (`base::ReadOnlyBuffer` semantics). Bytes are
modelled as naturals. -/
def readBytes (buf : List ℕ) (off n : ℕ) : Option (List ℕ × ℕ) :=
  if off + n ≤ buf.length then some ((buf.drop off).take n, off + n)
  else none

/-- Little-endian value of a byte list. -/
def leVal : List ℕ → ℕ
  | [] => 0
  | b :: bs => b + 256 * leVal bs

def readU32 (buf : List ℕ) (off : ℕ) : Option (ℕ × ℕ) :=
  (readBytes buf off 4).map fun p => (leVal p.1, p.2)

def readU64 (buf : List ℕ) (off : ℕ) : Option (ℕ × ℕ) :=
  (readBytes buf off 8).map fun p => (leVal p.1, p.2)

/-- `circom::PrimeField`: the raw bytes of a field element. -/
structure PrimeField where
  bytes : List ℕ
  deriving DecidableEq

/-- Modelled from the spec: `PrimeField::Read(buffer)` (its implementation
is not under `src/`): the header's field modulus is serialized as a `u32`
byte length followed by that many bytes in the little-endian binary
layout (spec §6). -/
def PrimeField.Read (buf : List ℕ) (off : ℕ) : Option (PrimeField × ℕ) :=
  match readU32 buf off with
  | none => none
  | some (n, o1) =>
    match readBytes buf o1 n with
    | none => none
    | some (bs, o2) => some (⟨bs⟩, o2)

/-- A term of a constraint: `(wire_id: u32, coefficient: field_size
bytes)` (spec §6). -/
structure Term where
  wire_id : ℕ
  coefficient : List ℕ
  deriving DecidableEq

/-- `circom::Constraint`: three term lists encoding `A · B = C`. -/
structure Constraint where
  a : List Term
  b : List Term
  c : List Term
  deriving DecidableEq

/-- `v1::R1CSHeaderSection`'s fields. -/
structure R1CSHeaderSection where
  modulus : PrimeField
  num_wires : ℕ
  num_public_outputs : ℕ
  num_public_inputs : ℕ
  num_private_inputs : ℕ
  num_labels : ℕ
  num_constraints : ℕ
  deriving DecidableEq

/-- `R1CSHeaderSection::Read`: reads the modulus and then the six counters
(`ReadMany`) in order, each directly into the member it belongs to; a
failure part-way returns `false` and leaves the members read so far
updated. -/
def R1CSHeaderSection.Read (h : R1CSHeaderSection) (buf : List ℕ)
    (off : ℕ) : Bool × R1CSHeaderSection × ℕ :=
  match PrimeField.Read buf off with
  | none => (false, h, off)
  | some (m, o1) =>
    let h1 := { h with modulus := m }
    match readU32 buf o1 with
    | none => (false, h1, o1)
    | some (nw, o2) =>
      let h2 := { h1 with num_wires := nw }
      match readU32 buf o2 with
      | none => (false, h2, o2)
      | some (npo, o3) =>
        let h3 := { h2 with num_public_outputs := npo }
        match readU32 buf o3 with
        | none => (false, h3, o3)
        | some (npi, o4) =>
          let h4 := { h3 with num_public_inputs := npi }
          match readU32 buf o4 with
          | none => (false, h4, o4)
          | some (npr, o5) =>
            let h5 := { h4 with num_private_inputs := npr }
            match readU64 buf o5 with
            | none => (false, h5, o5)
            | some (nl, o6) =>
              let h6 := { h5 with num_labels := nl }
              match readU32 buf o6 with
              | none => (false, h6, o6)
              | some (nc, o7) => (true, { h6 with num_constraints := nc }, o7)

/-- One term list of a constraint: `n` terms of
`(wire_id: u32, coefficient: field_size bytes)`; the terms vector is a
local of `R1CSConstraintsSection::Read` and is discarded on failure. -/
def readTerms (buf : List ℕ) (fieldSize : ℕ) :
    ℕ → ℕ → Option (List Term × ℕ)
  | 0, off => some ([], off)
  | n + 1, off =>
    match readU32 buf off with
    | none => none
    | some (w, o1) =>
      match readBytes buf o1 fieldSize with
      | none => none
      | some (coef, o2) =>
        match readTerms buf fieldSize n o2 with
        | none => none
        | some (ts, o3) => some (⟨w, coef⟩ :: ts, o3)

/-- A term list prefixed by its `u32` count. -/
def readLinearCombination (buf : List ℕ) (fieldSize off : ℕ) :
    Option (List Term × ℕ) :=
  match readU32 buf off with
  | none => none
  | some (n, o1) => readTerms buf fieldSize n o1

/-- The loop of `R1CSConstraintsSection::Read`: each completed constraint
is pushed onto the section's vector before the next one is read, so a
failure returns `false` with the constraints read so far retained. -/
def readConstraints (buf : List ℕ) (fieldSize : ℕ) :
    ℕ → List Constraint → ℕ → Bool × List Constraint × ℕ
  | 0, cs, off => (true, cs, off)
  | n + 1, cs, off =>
    match readLinearCombination buf fieldSize off with
    | none => (false, cs, off)
    | some (a, o1) =>
      match readLinearCombination buf fieldSize o1 with
      | none => (false, cs, o1)
      | some (b, o2) =>
        match readLinearCombination buf fieldSize o2 with
        | none => (false, cs, o2)
        | some (c, o3) =>
          readConstraints buf fieldSize n (cs ++ [⟨a, b, c⟩]) o3

/-- `std::vector::resize`: keep the first `n` elements, pad with zeros. -/
def resizeList (l : List ℕ) (n : ℕ) : List ℕ :=
  l.take n ++ List.replicate (n - l.length) 0

/-- The loop of `R1CSWireId2LabelIdMapSection::Read`: one `u64` per wire,
written in place; a failure leaves the entries read so far. -/
def readLabelsLoop (buf : List ℕ) :
    ℕ → ℕ → List ℕ → ℕ → Bool × List ℕ × ℕ
  | 0, _, l, off => (true, l, off)
  | k + 1, i, l, off =>
    match readU64 buf off with
    | none => (false, l, off)
    | some (v, o1) => readLabelsLoop buf k (i + 1) (l.set i v) o1

/-- `R1CSWireId2LabelIdMapSection::Read`: `label_ids.resize(num_wires)`,
then read one `u64` label per wire. -/
def readWireMap (label_ids : List ℕ) (buf : List ℕ)
    (num_wires off : ℕ) : Bool × List ℕ × ℕ :=
  readLabelsLoop buf num_wires 0 (resizeList label_ids num_wires) off

/-- A parsed section-table entry: type tag, payload offset, payload
size. -/
structure SectionEntry where
  type : ℕ
  offset : ℕ
  size : ℕ
  deriving DecidableEq

/-- Modelled from the spec: the section-table scan of `Sections::Read`
(`circomlib/base/sections.h`, not under `src/`): after the magic, the file
is a sequence of sections, each a `u32` type tag, a `u64` byte size and
that many payload bytes ("Little-endian binary layout with a magic header
`r1cs`, followed by typed sections … discoverable by type tag", spec §6);
a truncated table fails. `fuel` bounds the recursion by the buffer
length. -/
def readSectionTable (buf : List ℕ) :
    ℕ → ℕ → Option (List SectionEntry)
  | 0, off => if off = buf.length then some [] else none
  | fuel + 1, off =>
    if off = buf.length then some []
    else
      match readU32 buf off with
      | none => none
      | some (t, o1) =>
        match readU64 buf o1 with
        | none => none
        | some (sz, o2) =>
          if o2 + sz ≤ buf.length then
            match readSectionTable buf fuel (o2 + sz) with
            | none => none
            | some rest => some (⟨t, o2, sz⟩ :: rest)
          else none

/-- Magic check plus section-table scan (`Sections::Read`): the file must
start with the 4 bytes `r1cs`. -/
def sectionsRead (buf : List ℕ) : Option (List SectionEntry) :=
  if buf.take 4 = [114, 49, 99, 115] then
    readSectionTable buf buf.length 4
  else none

/-- `Sections::MoveTo`: position the cursor at the start of the payload of
the first section with the given type tag. -/
def moveTo (secs : List SectionEntry) (t : ℕ) : Option ℕ :=
  (secs.find? fun s => s.type = t).map (·.offset)

/-- `v1::R1CS`: the three sections held by the reader object. -/
structure R1CS where
  header : R1CSHeaderSection
  constraints : List Constraint
  wire_id_to_label_id_map : List ℕ
  deriving DecidableEq

/-- `v1::R1CS::Read`: parse the section table, then read the header
(type 1), constraints (type 2) and wire-to-label map (type 3) sections in
that order, mutating the object's members as each section is read; any
failure returns `false` with the members updated so far. -/
def R1CS.Read (r : R1CS) (buf : List ℕ) : Bool × R1CS :=
  match sectionsRead buf with
  | none => (false, r)
  | some secs =>
    match moveTo secs 1 with
    | none => (false, r)
    | some hoff =>
      match R1CSHeaderSection.Read r.header buf hoff with
      | (false, h, _) => (false, { r with header := h })
      | (true, h, _) =>
        match moveTo secs 2 with
        | none => (false, { r with header := h })
        | some coff =>
          match readConstraints buf h.modulus.bytes.length
              h.num_constraints r.constraints coff with
          | (false, cs, _) => (false, { r with header := h, constraints := cs })
          | (true, cs, _) =>
            match moveTo secs 3 with
            | none => (false, { r with header := h, constraints := cs })
            | some woff =>
              match readWireMap r.wire_id_to_label_id_map buf
                  h.num_wires woff with
              | (false, l, _) =>
                (false, { header := h, constraints := cs,
                          wire_id_to_label_id_map := l })
              | (true, l, _) =>
                (true, { header := h, constraints := cs,
                         wire_id_to_label_id_map := l })

end Circom

namespace Circom

/-- **C9 (amended).** `R1CS::Read` returns `false` to the caller whenever
a stage of the parse fails; when the section table itself fails nothing is
modified, but a failure in a later section leaves the sections already
read holding their newly read values (the header keeps its parsed state
when the constraints section is truncated). -/
theorem read_failure_behavior (r : R1CS) (buf : List ℕ) :
    (sectionsRead buf = none → R1CS.Read r buf = (false, r)) ∧
    (∀ secs hoff h o1, sectionsRead buf = some secs →
      moveTo secs 1 = some hoff →
      R1CSHeaderSection.Read r.header buf hoff = (false, h, o1) →
      R1CS.Read r buf = (false, { r with header := h })) ∧
    (∀ secs hoff h o1 coff cs o2, sectionsRead buf = some secs →
      moveTo secs 1 = some hoff →
      R1CSHeaderSection.Read r.header buf hoff = (true, h, o1) →
      moveTo secs 2 = some coff →
      readConstraints buf h.modulus.bytes.length h.num_constraints
        r.constraints coff = (false, cs, o2) →
      R1CS.Read r buf = (false, { r with header := h, constraints := cs })) := by
  refine ⟨?_, ?_, ?_⟩
  · intro hsec
    simp only [R1CS.Read, hsec]
  · intro secs hoff h o1 hsec hmv hhdr
    simp only [R1CS.Read, hsec, hmv, hhdr]
  · intro secs hoff h o1 coff cs o2 hsec hmv hhdr hmv2 hcons
    simp only [R1CS.Read, hsec, hmv, hhdr, hmv2, hcons]

/-- A well-formed prefix (magic, a valid header section for a 1-byte
modulus, one wire, one constraint) followed by a constraints section whose
payload is truncated after the first term count. -/
def cbuf : List ℕ :=
  [114, 49, 99, 115,
   1, 0, 0, 0,  33, 0, 0, 0, 0, 0, 0, 0,
   1, 0, 0, 0,  7,
   1, 0, 0, 0,  0, 0, 0, 0,  0, 0, 0, 0,  0, 0, 0, 0,
   1, 0, 0, 0, 0, 0, 0, 0,
   1, 0, 0, 0,
   2, 0, 0, 0,  4, 0, 0, 0, 0, 0, 0, 0,
   1, 0, 0, 0]

/-- A default-initialized reader object. -/
def r0 : R1CS := ⟨⟨⟨[]⟩, 0, 0, 0, 0, 0, 0⟩, [], []⟩

/-- **C9 (counterexample).** On a truncated constraints section, `Read`
returns `false` but the object does not keep its previous state: the
header section holds the values parsed before the failure, which differ
from the state before the call. -/
theorem read_retains_partial_state :
    (R1CS.Read r0 cbuf).1 = false ∧
    (R1CS.Read r0 cbuf).2.header = ⟨⟨[7]⟩, 1, 0, 0, 0, 1, 1⟩ ∧
    r0.header ≠ ⟨⟨[7]⟩, 1, 0, 0, 0, 1, 1⟩ :=
  ⟨rfl, rfl, by decide⟩

/-- **C9 (witness).** The amended theorem's constraints-failure branch
applied at the concrete truncated buffer. -/
theorem read_failure_behavior_witness :
    (sectionsRead cbuf = some [⟨1, 16, 33⟩, ⟨2, 61, 4⟩]) ∧
    (moveTo [⟨1, 16, 33⟩, ⟨2, 61, 4⟩] 1 = some 16) ∧
    (R1CSHeaderSection.Read r0.header cbuf 16 =
      (true, ⟨⟨[7]⟩, 1, 0, 0, 0, 1, 1⟩, 49)) ∧
    (moveTo [⟨1, 16, 33⟩, ⟨2, 61, 4⟩] 2 = some 61) ∧
    (readConstraints cbuf 1 1 r0.constraints 61 = (false, [], 61)) ∧
    R1CS.Read r0 cbuf =
      (false, { r0 with header := ⟨⟨[7]⟩, 1, 0, 0, 0, 1, 1⟩,
                        constraints := [] }) :=
  ⟨by decide, by decide, by decide, by decide, by decide,
    (read_failure_behavior r0 cbuf).2.2 [⟨1, 16, 33⟩, ⟨2, 61, 4⟩] 16
      ⟨⟨[7]⟩, 1, 0, 0, 0, 1, 1⟩ 49 61 [] 61
      (by decide) (by decide) (by decide) (by decide) (by decide)⟩

end Circom
